import Mathlib

/-!
Shallow embedding of `src/core/metrics.py` (module `ml_algo_lib`): evaluation
metrics, impurity measures, split-quality functions, metric resolution and the
history-tracking metric aggregator.

Modelling conventions:
* Python floats are modelled as exact rationals (`ℚ`); numpy 1-D arrays as
  `List ℚ` (for predictions) or `List α` (for label vectors).
* Python exceptions are modelled by the error type `PyErr`; a function that can
  raise returns `Except PyErr _`.  Distinct `raise` sites of the source (the
  `TypeError`, the two `ValueError`s of `_validate_inputs`, the two
  `ValueError`s of `get_metric`, `ZeroDivisionError`, and exceptions escaping a
  user callable) are modelled by distinct constructors, mirroring their
  distinct messages.
* `np.log2` is modelled by an uninterpreted parameter `L : Log2` — a function
  `ℚ → ℚ` packaged with the two sign facts of the real base-2 logarithm that
  the source relies on (`log2 1 = 0` and `log2 p < 0` for `0 < p < 1`).  This
  keeps every definition executable while remaining faithful: every theorem
  proved for all `L : Log2` holds in particular for the real `log2`.
* Python `dict`s (the aggregator's history and result mappings) are modelled
  as insertion-ordered association lists with overwrite-on-assignment
  (`dictSet`), which is observationally exactly a `dict` whose keys are the
  strings inserted.
-/

namespace MlAlgoLib

/-- Error taxonomy: one constructor per distinct raise site reachable from the
    embedded code, plus `raised` for an exception escaping a user callable. -/
inductive PyErr where
  | typeError
  | shapeMismatch
  | emptyInput
  | unknownMetric (name : String)
  | invalidMetricSpec
  | zeroDivision
  | raised
  deriving DecidableEq

/-- Argument values a pointwise metric can receive: a numeric 1-D numpy array,
    or any non-array Python value (the case `_validate_inputs` rejects with
    `TypeError`). -/
inductive PyValue where
  | arr (xs : List ℚ)
  | nonArray
  deriving DecidableEq

/-- Embedding of `_validate_inputs` (metrics.py lines 8-15): type check, then
    shape check, then emptiness check; on success it hands the two arrays to
    the metric body. -/
def validate_inputs : PyValue → PyValue → Except PyErr (List ℚ × List ℚ)
  | .arr xs, .arr ys =>
      if xs.length ≠ ys.length then .error .shapeMismatch
      else if xs.length = 0 then .error .emptyInput
      else .ok (xs, ys)
  | _, _ => .error .typeError

instance {ε γ : Type} [DecidableEq ε] [DecidableEq γ] :
    DecidableEq (Except ε γ) := fun a b =>
  match a, b with
  | .ok x, .ok y =>
    if h : x = y then .isTrue (by rw [h])
    else .isFalse fun hc => h (Except.ok.inj hc)
  | .error e, .error f =>
    if h : e = f then .isTrue (by rw [h])
    else .isFalse fun hc => h (Except.error.inj hc)
  | .ok _, .error _ => .isFalse fun hc => Except.noConfusion hc
  | .error _, .ok _ => .isFalse fun hc => Except.noConfusion hc

/-- A metric instance: its `name` attribute and its `__call__` body. -/
structure Metric where
  name : String
  eval : PyValue → PyValue → Except PyErr ℚ

/-- Shared shape of every pointwise `__call__` body in the source: run
    `_validate_inputs(y_true, y_pred)` first, then compute on the two arrays. -/
def withValidation (k : List ℚ → List ℚ → Except PyErr ℚ) :
    PyValue → PyValue → Except PyErr ℚ :=
  fun y_true y_pred => do
    let (xs, ys) ← validate_inputs y_true y_pred
    k xs ys

/-- Embedding of the `Accuracy` instance: `np.mean(y_true == y_pred)`, the
    fraction of positions where the entries coincide. -/
def Accuracy : Metric :=
  ⟨"accuracy", withValidation fun xs ys =>
    pure ((List.zipWith (fun a b => if a = b then (1 : ℚ) else 0) xs ys).sum
            / (xs.length : ℚ))⟩

/-- Embedding of the `MSE` instance: `np.mean((y_true - y_pred) ** 2)`. -/
def MSE : Metric :=
  ⟨"mse", withValidation fun xs ys =>
    pure ((List.zipWith (fun a b => (a - b) ^ 2) xs ys).sum / (xs.length : ℚ))⟩

/-- Embedding of the `MAE` instance: `np.mean(np.abs(y_true - y_pred))`. -/
def MAE : Metric :=
  ⟨"mae", withValidation fun xs ys =>
    pure ((List.zipWith (fun a b => |a - b|) xs ys).sum / (xs.length : ℚ))⟩

/-- Embedding of the `R2Score` instance (metrics.py lines 58-70):
    `ss_res = Σ (y_true - y_pred)^2`, `ss_tot = Σ (y_true - mean(y_true))^2`,
    returning `0.0` when `ss_tot == 0` and `1 - ss_res / ss_tot` otherwise. -/
def R2Score : Metric :=
  ⟨"r2", withValidation fun xs ys =>
    let ss_res := (List.zipWith (fun a b => (a - b) ^ 2) xs ys).sum
    let m := xs.sum / (xs.length : ℚ)
    let ss_tot := (xs.map (fun a => (a - m) ^ 2)).sum
    pure (if ss_tot = 0 then 0 else 1 - ss_res / ss_tot)⟩

/-- A user-supplied callable: its `__name__` and its body (which may raise). -/
structure PyCallable where
  name : String
  fn : List ℚ → List ℚ → Except PyErr ℚ

/-- Embedding of `MetricWrapper`: name taken from `fn.__name__`, evaluation
    validates the inputs and then delegates to the wrapped callable. -/
def MetricWrapper (c : PyCallable) : Metric :=
  ⟨c.name, withValidation c.fn⟩

/-- Identifiers accepted by `get_metric`: a `Metric` instance, a string, a
    callable, or (`other`) any value that is none of these — e.g. the int 42. -/
inductive MetricSpec where
  | inst (m : Metric)
  | str (s : String)
  | callable (c : PyCallable)
  | other (n : ℤ)

/-- Embedding of `get_metric` (metrics.py lines 163-180): instance passthrough,
    string lookup in the four-entry map (unknown name raises), callable
    wrapping, and the final `ValueError` for unsupported identifier types. -/
def get_metric : MetricSpec → Except PyErr Metric
  | .inst m => .ok m
  | .str s =>
      if s = "accuracy" then .ok Accuracy
      else if s = "mse" then .ok MSE
      else if s = "mae" then .ok MAE
      else if s = "r2" then .ok R2Score
      else .error (.unknownMetric s)
  | .callable c => .ok (MetricWrapper c)
  | .other _ => .error .invalidMetricSpec

/-- Uninterpreted model of `np.log2` on the (rational) proportions the source
    feeds it: a function together with the two sign facts of the real base-2
    logarithm that the impurity proofs rely on.  Any theorem quantified over
    `L : Log2` holds in particular for the real logarithm. -/
structure Log2 where
  f : ℚ → ℚ
  one_eq : f 1 = 0
  neg_of_lt_one : ∀ p : ℚ, 0 < p → p < 1 → f p < 0

/-- Concrete `Log2` instance (a sign-faithful stub) used to instantiate
    witnesses on concrete inputs. -/
def log2Step : Log2 :=
  ⟨fun p => if p < 1 then -1 else if p = 1 then 0 else 1,
   by norm_num,
   fun p _ h2 => by simp [h2]⟩

/-- Embedding of `ImpurityMetric.compute_proportions` (metrics.py lines 72-80):
    empty input yields the empty array, otherwise the per-distinct-class counts
    from `np.unique(y, return_counts=True)` divided by `len(y)`. -/
def compute_proportions {α : Type} [DecidableEq α] (y : List α) : List ℚ :=
  if y.length = 0 then []
  else y.dedup.map (fun c => (y.count c : ℚ) / (y.length : ℚ))

/-- Embedding of `Entropy.__call__`: filter out non-positive proportions, then
    `-Σ p * log2 p` (with `np.log2` modelled by `L`). -/
def Entropy {α : Type} [DecidableEq α] (L : Log2) (y : List α) : ℚ :=
  -((((compute_proportions y).filter (fun p => 0 < p)).map
      (fun p => p * L.f p)).sum)

/-- Embedding of `GiniImpurity.__call__`: `1 - Σ p_i ^ 2`. -/
def GiniImpurity {α : Type} [DecidableEq α] (y : List α) : ℚ :=
  1 - ((compute_proportions y).map (fun p => p ^ 2)).sum

/-- Embedding of `MisclassificationError.__call__`:
    `1 - np.max(proportions)` when the proportion list is non-empty, else 0. -/
def MisclassificationError {α : Type} [DecidableEq α] (y : List α) : ℚ :=
  if 0 < (compute_proportions y).length
  then 1 - (compute_proportions y).maximum.unbot' 0
  else 0

/-- Python true division of two numbers, raising `ZeroDivisionError` on a zero
    denominator (as `len(child) / len(y_parent)` does for an empty parent). -/
def pydiv (a b : ℚ) : Except PyErr ℚ :=
  if b = 0 then .error .zeroDivision else .ok (a / b)

/-- Embedding of the generator-expression sum
    `sum(len(child) / n_parent * impurity_metric(child) for child in y_children)`
    inside `information_gain`: terms are produced left to right, and the first
    zero division aborts the sum. -/
def weighted_child_impurity {α : Type} (imp : List α → ℚ) (n_parent : ℕ) :
    List (List α) → Except PyErr ℚ
  | [] => .ok 0
  | child :: rest => do
    let w ← pydiv (child.length : ℚ) (n_parent : ℚ)
    let acc ← weighted_child_impurity imp n_parent rest
    pure (w * imp child + acc)

/-- Embedding of `information_gain` (metrics.py lines 117-138), parametrised by
    the impurity metric (default `Entropy()` at call sites): parent impurity
    minus the size-weighted sum of child impurities. -/
def information_gain {α : Type} (imp : List α → ℚ) (y_parent : List α)
    (y_children : List (List α)) : Except PyErr ℚ := do
  let parent_impurity := imp y_parent
  let w ← weighted_child_impurity imp y_parent.length y_children
  pure (parent_impurity - w)

/-- Embedding of the sum
    `sum((len(child) / n_parent) * np.log2(len(child) / n_parent) for child in y_children)`
    inside `gain_ratio` (the negation is applied by the caller). -/
def split_info_sum {α : Type} (L : Log2) (n_parent : ℕ) :
    List (List α) → Except PyErr ℚ
  | [] => .ok 0
  | child :: rest => do
    let w ← pydiv (child.length : ℚ) (n_parent : ℚ)
    let acc ← split_info_sum L n_parent rest
    pure (w * L.f w + acc)

/-- Embedding of `gain_ratio` (metrics.py lines 140-161): information gain
    divided by the split information, returning `0.0` when the split
    information is zero. -/
def gain_ratio {α : Type} (L : Log2) (imp : List α → ℚ) (y_parent : List α)
    (y_children : List (List α)) : Except PyErr ℚ := do
  let ig ← information_gain imp y_parent y_children
  let s ← split_info_sum L y_parent.length y_children
  pure (if -s ≠ 0 then ig / -s else 0)

/-- Insertion-ordered association list modelling a Python `dict` with `String`
    keys. -/
abbrev Dict (β : Type) := List (String × β)

/-- Lookup `d[k]` (as an `Option`, mirroring presence/absence of the key). -/
def dictGet? {β : Type} : Dict β → String → Option β
  | [], _ => none
  | p :: rest, k => if p.1 = k then some p.2 else dictGet? rest k

/-- Assignment `d[k] = v`: overwrite the first binding of `k` in place, or
    append a new binding at the end — exactly a Python dict's observable
    behaviour on unique-key association lists. -/
def dictSet {β : Type} : Dict β → String → β → Dict β
  | [], k, v => [(k, v)]
  | p :: rest, k, v => if p.1 = k then (k, v) :: rest else p :: dictSet rest k v

/-- Embedding of the `MetricList.__init__` history initialisation
    `{m.name: [] for m in self.metrics}`. -/
def init_history (ms : List Metric) : Dict (List ℚ) :=
  ms.foldl (fun h m => dictSet h m.name []) []

/-- One iteration of the loop body of `MetricList.__call__`: on success append
    the score to the metric's history and record it in the results; on any
    error record `None` (modelled `none`) and leave the history untouched. -/
def evalOne (y_true y_pred : PyValue) (st : Dict (List ℚ) × Dict (Option ℚ))
    (m : Metric) : Dict (List ℚ) × Dict (Option ℚ) :=
  match m.eval y_true y_pred with
  | .ok score =>
      (dictSet st.1 m.name (((dictGet? st.1 m.name).getD []) ++ [score]),
       dictSet st.2 m.name (some score))
  | .error _ => (st.1, dictSet st.2 m.name none)

/-- Embedding of `MetricList.__call__` (metrics.py lines 200-209): fold the
    per-metric loop over the metric list, starting from the given history and
    an empty results dict; returns (new history, results). -/
def MetricList_call (ms : List Metric) (hist : Dict (List ℚ))
    (y_true y_pred : PyValue) : Dict (List ℚ) × Dict (Option ℚ) :=
  ms.foldl (evalOne y_true y_pred) (hist, ([] : Dict (Option ℚ)))

/-- Embedding of `MetricList.__init__` (metrics.py lines 196-198): resolve
    every identifier through `get_metric` (propagating its errors) and build
    the initial history. -/
def MetricList_init (specs : List MetricSpec) :
    Except PyErr (List Metric × Dict (List ℚ)) := do
  let ms ← specs.mapM get_metric
  pure (ms, init_history ms)

/-! Basic lemmas about validation and the `withValidation` combinator. -/

theorem validate_inputs_nonArray_left (v : PyValue) :
    validate_inputs .nonArray v = .error .typeError := by
  cases v <;> rfl

theorem validate_inputs_nonArray_right (v : PyValue) :
    validate_inputs v .nonArray = .error .typeError := by
  cases v <;> rfl

theorem validate_inputs_shape {xs ys : List ℚ} (h : xs.length ≠ ys.length) :
    validate_inputs (.arr xs) (.arr ys) = .error .shapeMismatch := by
  simp only [validate_inputs, if_pos h]

theorem validate_inputs_ok {xs ys : List ℚ} (hlen : xs.length = ys.length)
    (hne : xs ≠ []) : validate_inputs (.arr xs) (.arr ys) = .ok (xs, ys) := by
  have h0 : xs.length ≠ 0 := fun h => hne (List.length_eq_zero.mp h)
  simp only [validate_inputs, hlen]
  rw [if_neg (by simp), if_neg (by simpa [← hlen] using h0)]

theorem withValidation_nonArray_left (k : List ℚ → List ℚ → Except PyErr ℚ)
    (v : PyValue) : withValidation k .nonArray v = .error .typeError := by
  cases v <;> rfl

theorem withValidation_nonArray_right (k : List ℚ → List ℚ → Except PyErr ℚ)
    (v : PyValue) : withValidation k v .nonArray = .error .typeError := by
  cases v <;> rfl

theorem withValidation_shape (k : List ℚ → List ℚ → Except PyErr ℚ)
    {xs ys : List ℚ} (h : xs.length ≠ ys.length) :
    withValidation k (.arr xs) (.arr ys) = .error .shapeMismatch := by
  unfold withValidation
  rw [validate_inputs_shape h]
  rfl

theorem withValidation_ok (k : List ℚ → List ℚ → Except PyErr ℚ)
    {xs ys : List ℚ} (hlen : xs.length = ys.length) (hne : xs ≠ []) :
    withValidation k (.arr xs) (.arr ys) = k xs ys := by
  unfold withValidation
  rw [validate_inputs_ok hlen hne]
  rfl

/-- Properties claimed in C7 for one pointwise metric: a `TypeError` when
    either argument is not an array, `ShapeMismatch` on unequal lengths, and
    `EmptyInput` on empty arrays. -/
def validates (m : Metric) : Prop :=
  (∀ v, m.eval .nonArray v = .error .typeError) ∧
  (∀ v, m.eval v .nonArray = .error .typeError) ∧
  (∀ xs ys : List ℚ, xs.length ≠ ys.length →
    m.eval (.arr xs) (.arr ys) = .error .shapeMismatch) ∧
  m.eval (.arr []) (.arr []) = .error .emptyInput

theorem validates_withValidation (nm : String)
    (k : List ℚ → List ℚ → Except PyErr ℚ) :
    validates ⟨nm, withValidation k⟩ :=
  ⟨fun v => withValidation_nonArray_left k v,
   fun v => withValidation_nonArray_right k v,
   fun _ _ h => withValidation_shape k h,
   rfl⟩

/-- C7: every pointwise metric (accuracy, MSE, MAE, R²) validates its two
    inputs before computing: a non-array argument fails with the
    TypeError-equivalent, vectors of different lengths fail with the
    shape-mismatch error, and empty vectors fail with the empty-input error. -/
theorem pointwise_metrics_validate :
    validates Accuracy ∧ validates MSE ∧ validates MAE ∧ validates R2Score :=
  ⟨validates_withValidation _ _, validates_withValidation _ _,
   validates_withValidation _ _, validates_withValidation _ _⟩

/-- Witness for C7: length-3 vs length-4 vectors fail with the shape error,
    and empty vectors fail with the empty-input error, at the accuracy
    metric. -/
theorem pointwise_metrics_validate_witness :
    Accuracy.eval (.arr [1, 2, 3]) (.arr [1, 2, 3, 4]) = .error .shapeMismatch
      ∧ Accuracy.eval (.arr []) (.arr []) = .error .emptyInput :=
  ⟨pointwise_metrics_validate.1.2.2.1 [1, 2, 3] [1, 2, 3, 4] (by decide),
   pointwise_metrics_validate.1.2.2.2⟩

/-- C6: metric resolution returns a `Metric` instance as-is, maps the four
    known strings to the corresponding metric instances, fails with the
    unknown-metric error on any other string, wraps callables, and fails with
    the invalid-spec error on any identifier that is neither a metric, a
    string, nor callable. -/
theorem get_metric_dispatch :
    (∀ m : Metric, get_metric (.inst m) = .ok m) ∧
    get_metric (.str "accuracy") = .ok Accuracy ∧
    get_metric (.str "mse") = .ok MSE ∧
    get_metric (.str "mae") = .ok MAE ∧
    get_metric (.str "r2") = .ok R2Score ∧
    (∀ s : String, s ≠ "accuracy" → s ≠ "mse" → s ≠ "mae" → s ≠ "r2" →
      get_metric (.str s) = .error (.unknownMetric s)) ∧
    (∀ c : PyCallable, get_metric (.callable c) = .ok (MetricWrapper c)) ∧
    (∀ n : ℤ, get_metric (.other n) = .error .invalidMetricSpec) := by
  refine ⟨fun m => rfl, rfl, rfl, rfl, rfl, fun s h1 h2 h3 h4 => ?_,
          fun c => rfl, fun n => rfl⟩
  simp only [get_metric, if_neg h1, if_neg h2, if_neg h3, if_neg h4]

/-- Witness for C6: the string "unknown_metric" fails with the unknown-metric
    error, and the integer identifier 42 fails with the invalid-spec error. -/
theorem get_metric_dispatch_witness :
    get_metric (.str "unknown_metric") = .error (.unknownMetric "unknown_metric")
      ∧ get_metric (.other 42) = .error .invalidMetricSpec :=
  ⟨get_metric_dispatch.2.2.2.2.2.1 "unknown_metric"
      (by decide) (by decide) (by decide) (by decide),
   get_metric_dispatch.2.2.2.2.2.2.2 42⟩

/-- C2: on equal-length non-empty vectors, R² returns
    `1 - SS_res / SS_tot` with `SS_res = Σ (y_true - y_pred)^2` and
    `SS_tot = Σ (y_true - mean(y_true))^2`, except that it returns exactly 0
    when `SS_tot = 0`; in particular it returns 0 whenever all true values are
    identical, rather than dividing by zero. -/
theorem r2_formula (xs ys : List ℚ) (hlen : xs.length = ys.length)
    (hne : xs ≠ []) :
    (R2Score.eval (.arr xs) (.arr ys) =
      .ok (if (xs.map (fun a => (a - xs.sum / (xs.length : ℚ)) ^ 2)).sum = 0
           then 0
           else 1 - (List.zipWith (fun a b => (a - b) ^ 2) xs ys).sum /
                  (xs.map (fun a => (a - xs.sum / (xs.length : ℚ)) ^ 2)).sum))
    ∧ ((∀ a ∈ xs, ∀ b ∈ xs, a = b) →
        R2Score.eval (.arr xs) (.arr ys) = .ok 0) := by
  have hbody : R2Score.eval (.arr xs) (.arr ys) =
      .ok (if (xs.map (fun a => (a - xs.sum / (xs.length : ℚ)) ^ 2)).sum = 0
           then 0
           else 1 - (List.zipWith (fun a b => (a - b) ^ 2) xs ys).sum /
                  (xs.map (fun a => (a - xs.sum / (xs.length : ℚ)) ^ 2)).sum) := by
    exact withValidation_ok (fun xs ys =>
      let ss_res := (List.zipWith (fun a b => (a - b) ^ 2) xs ys).sum
      let m := xs.sum / (xs.length : ℚ)
      let ss_tot := (xs.map (fun a => (a - m) ^ 2)).sum
      pure (if ss_tot = 0 then 0 else 1 - ss_res / ss_tot)) hlen hne
  refine ⟨hbody, fun hconst => ?_⟩
  obtain ⟨c, hc⟩ : ∃ c, ∀ a ∈ xs, a = c := by
    cases xs with
    | nil => exact absurd rfl hne
    | cons a t => exact ⟨a, fun b hb => hconst b hb a (List.mem_cons_self a t)⟩
  have hmean : xs.sum / (xs.length : ℚ) = c := by
    have h0 : (xs.length : ℚ) ≠ 0 := by
      have : xs.length ≠ 0 := fun h => hne (List.length_eq_zero.mp h)
      exact_mod_cast this
    rw [List.sum_eq_card_nsmul xs c hc, nsmul_eq_mul]
    field_simp
  have htot : (xs.map (fun a => (a - xs.sum / (xs.length : ℚ)) ^ 2)).sum = 0 := by
    apply List.sum_eq_zero
    intro x hx
    obtain ⟨a, ha, rfl⟩ := List.mem_map.mp hx
    rw [hmean, hc a ha]
    ring
  rw [hbody, if_pos htot]

/-- Witness for C2: `y_true = [1,1,1]` has zero variance, so R² returns
    exactly 0 on predictions `[5,6,7]` instead of raising. -/
theorem r2_formula_witness :
    R2Score.eval (.arr [1, 1, 1]) (.arr [5, 6, 7]) = .ok 0 :=
  (r2_formula [1, 1, 1] [5, 6, 7] (by decide) (by decide)).2 (by decide)

/-! Lemmas about `compute_proportions` and helper facts on list sums. -/

theorem list_sum_nonpos {l : List ℚ} (h : ∀ x ∈ l, x ≤ 0) : l.sum ≤ 0 := by
  induction l with
  | nil => simp
  | cons a t ih =>
    have ha := h a (List.mem_cons_self a t)
    have ht := ih fun x hx => h x (List.mem_cons_of_mem a hx)
    simp only [List.sum_cons]
    linarith

theorem list_sum_neg {l : List ℚ} (h : ∀ x ∈ l, x ≤ 0)
    (hx : ∃ x ∈ l, x < 0) : l.sum < 0 := by
  induction l with
  | nil => simp at hx
  | cons a t ih =>
    have ha := h a (List.mem_cons_self a t)
    have ht := list_sum_nonpos fun x hx => h x (List.mem_cons_of_mem a hx)
    simp only [List.sum_cons]
    rcases hx with ⟨x, hmem, hneg⟩
    rcases List.mem_cons.mp hmem with rfl | hmem
    · linarith
    · have := ih (fun x hx => h x (List.mem_cons_of_mem a hx)) ⟨x, hmem, hneg⟩
      linarith

theorem compute_proportions_length {α : Type} [DecidableEq α] (y : List α) :
    (compute_proportions y).length = y.dedup.length := by
  unfold compute_proportions
  by_cases h0 : y.length = 0
  · rw [if_pos h0]
    have : y = [] := List.length_eq_zero.mp h0
    simp [this]
  · rw [if_neg h0, List.length_map]

theorem compute_proportions_mem {α : Type} [DecidableEq α] {y : List α} {p : ℚ}
    (hp : p ∈ compute_proportions y) : 0 < p ∧ p ≤ 1 := by
  unfold compute_proportions at hp
  by_cases h0 : y.length = 0
  · rw [if_pos h0] at hp
    simp at hp
  · rw [if_neg h0] at hp
    obtain ⟨c, hc, rfl⟩ := List.mem_map.mp hp
    have hcy : c ∈ y := List.mem_dedup.mp hc
    have hcount : 0 < y.count c := List.count_pos_iff.mpr hcy
    have hlen : (0 : ℚ) < (y.length : ℚ) := by
      exact_mod_cast Nat.pos_of_ne_zero h0
    refine ⟨div_pos (by exact_mod_cast hcount) hlen, ?_⟩
    rw [div_le_one hlen]
    exact_mod_cast List.count_le_length c y

theorem compute_proportions_sum {α : Type} [DecidableEq α] {y : List α}
    (hne : y ≠ []) : (compute_proportions y).sum = 1 := by
  have h0 : y.length ≠ 0 := fun h => hne (List.length_eq_zero.mp h)
  have hq : (y.length : ℚ) ≠ 0 := by exact_mod_cast h0
  unfold compute_proportions
  rw [if_neg h0]
  have hrw : (y.dedup.map fun c => (y.count c : ℚ) / (y.length : ℚ)) =
      y.dedup.map fun c => (fun c => (y.count c : ℚ)) c * ((y.length : ℚ))⁻¹ := by
    simp [div_eq_mul_inv]
  rw [hrw, List.sum_map_mul_right]
  have hcast : (y.dedup.map fun c => (y.count c : ℚ)).sum =
      (((y.dedup.map fun c => y.count c).sum : ℕ) : ℚ) := by
    rw [Nat.cast_list_sum, List.map_map]
    rfl
  rw [hcast, List.sum_map_count_dedup_eq_length]
  field_simp

theorem compute_proportions_single {α : Type} [DecidableEq α] {y : List α}
    (hne : y ≠ []) (h1 : y.dedup.length ≤ 1) : compute_proportions y = [1] := by
  have h0 : y.length ≠ 0 := fun h => hne (List.length_eq_zero.mp h)
  have hq : (y.length : ℚ) ≠ 0 := by exact_mod_cast h0
  have hd : y.dedup ≠ [] := by
    intro h
    exact hne ((List.dedup_eq_nil _).mp h)
  have hlen1 : y.dedup.length = 1 :=
    le_antisymm h1 (List.length_pos.mpr hd)
  obtain ⟨c, hc⟩ := List.length_eq_one.mp hlen1
  have hcount : y.count c = y.length := by
    refine List.count_eq_length.mpr fun b hb => ?_
    have : b ∈ y.dedup := List.mem_dedup.mpr hb
    rw [hc] at this
    exact (List.mem_singleton.mp this).symm
  unfold compute_proportions
  rw [if_neg h0, hc]
  simp only [List.map_cons, List.map_nil, hcount]
  rw [div_self hq]

theorem compute_proportions_lt_one {α : Type} [DecidableEq α] {y : List α}
    (h2 : 2 ≤ y.dedup.length) : ∀ p ∈ compute_proportions y, p < 1 := by
  intro p hp
  have hne : y ≠ [] := by
    intro h
    subst h
    simp at h2
  have h0 : y.length ≠ 0 := fun h => hne (List.length_eq_zero.mp h)
  have hlen : (0 : ℚ) < (y.length : ℚ) := by
    exact_mod_cast Nat.pos_of_ne_zero h0
  unfold compute_proportions at hp
  rw [if_neg h0] at hp
  obtain ⟨c, _, rfl⟩ := List.mem_map.mp hp
  have hlt : y.count c < y.length := by
    rcases lt_or_eq_of_le (List.count_le_length c y) with h | h
    · exact h
    · exfalso
      have hall : ∀ b ∈ y, c = b := List.count_eq_length.mp h
      obtain ⟨a, b, t, habt⟩ : ∃ a b t, y.dedup = a :: b :: t := by
        cases hL : y.dedup with
        | nil => rw [hL] at h2; simp at h2
        | cons a r =>
          cases hR : r with
          | nil => rw [hL, hR] at h2; simp at h2
          | cons b t => exact ⟨a, b, t, rfl⟩
      have hnodup := y.nodup_dedup
      rw [habt] at hnodup
      have hane : a ≠ b := by
        intro hab
        exact (List.nodup_cons.mp hnodup).1 (hab ▸ List.mem_cons_self b t)
      have haY : a ∈ y := List.mem_dedup.mp (habt ▸ List.mem_cons_self a (b :: t))
      have hbY : b ∈ y :=
        List.mem_dedup.mp (habt ▸ List.mem_cons_of_mem a (List.mem_cons_self b t))
      exact hane ((hall a haY).symm.trans (hall b hbY))
  rw [div_lt_one hlen]
  exact_mod_cast hlt

/-- C8: for a label vector with k distinct values the class-proportion vector
    has exactly k entries (one per distinct value — so zero-count classes never
    appear), every entry lies in (0, 1], the entries sum to 1 when the vector
    is non-empty, and the empty vector yields the empty proportion vector. -/
theorem compute_proportions_invariants {α : Type} [DecidableEq α] (y : List α) :
    compute_proportions ([] : List α) = [] ∧
    (compute_proportions y).length = y.dedup.length ∧
    (∀ p ∈ compute_proportions y, 0 < p ∧ p ≤ 1) ∧
    (y ≠ [] → (compute_proportions y).sum = 1) :=
  ⟨rfl, compute_proportions_length y, fun _ hp => compute_proportions_mem hp,
   fun hne => compute_proportions_sum hne⟩

/-- Witness for C8 at the concrete label vector [0, 0, 1]: two proportions,
    summing to one. -/
theorem compute_proportions_invariants_witness :
    (compute_proportions ([0, 0, 1] : List ℤ)).length =
      ([0, 0, 1] : List ℤ).dedup.length ∧
    (compute_proportions ([0, 0, 1] : List ℤ)).sum = 1 :=
  ⟨(compute_proportions_invariants ([0, 0, 1] : List ℤ)).2.1,
   (compute_proportions_invariants ([0, 0, 1] : List ℤ)).2.2.2 (by decide)⟩

theorem compute_proportions_ne_nil {α : Type} [DecidableEq α] {y : List α}
    (hne : y ≠ []) : compute_proportions y ≠ [] := by
  intro h
  have hlen := compute_proportions_length y
  rw [h] at hlen
  have hd : y.dedup ≠ [] := fun hd => hne ((List.dedup_eq_nil _).mp hd)
  exact hd (List.length_eq_zero.mp hlen.symm)

theorem dedup_ge_two_ne_nil {α : Type} [DecidableEq α] {y : List α}
    (h2 : 2 ≤ y.dedup.length) : y ≠ [] := by
  intro h
  subst h
  simp at h2

/-! Impurity analysis for C3. -/

theorem entropy_term_nonpos {α : Type} [DecidableEq α] (L : Log2) (y : List α) :
    ∀ x ∈ ((compute_proportions y).filter (fun p => 0 < p)).map
        (fun p => p * L.f p), x ≤ 0 := by
  intro x hx
  obtain ⟨p, hpmem, rfl⟩ := List.mem_map.mp hx
  have hfil := List.mem_filter.mp hpmem
  have hp : 0 < p := by simpa using hfil.2
  have hple := (compute_proportions_mem hfil.1).2
  have hf : L.f p ≤ 0 := by
    rcases lt_or_eq_of_le hple with h | h
    · exact (L.neg_of_lt_one p hp h).le
    · rw [h, L.one_eq]
  exact mul_nonpos_iff.mpr (Or.inl ⟨hp.le, hf⟩)

theorem Entropy_nonneg {α : Type} [DecidableEq α] (L : Log2) (y : List α) :
    0 ≤ Entropy L y := by
  unfold Entropy
  rw [neg_nonneg]
  exact list_sum_nonpos (entropy_term_nonpos L y)

theorem Entropy_eq_zero_iff {α : Type} [DecidableEq α] (L : Log2) (y : List α) :
    Entropy L y = 0 ↔ y.dedup.length ≤ 1 := by
  constructor
  · intro h
    by_contra hgt
    have h2 : 2 ≤ y.dedup.length := by omega
    have hne : y ≠ [] := dedup_ge_two_ne_nil h2
    obtain ⟨p, hpmem⟩ :=
      List.exists_mem_of_ne_nil _ (compute_proportions_ne_nil hne)
    have hp0 := (compute_proportions_mem hpmem).1
    have hp1 : p < 1 := compute_proportions_lt_one h2 p hpmem
    have hsum : (((compute_proportions y).filter (fun p => 0 < p)).map
        (fun p => p * L.f p)).sum < 0 := by
      apply list_sum_neg (entropy_term_nonpos L y)
      refine ⟨p * L.f p, List.mem_map_of_mem _ ?_,
        mul_neg_of_pos_of_neg hp0 (L.neg_of_lt_one p hp0 hp1)⟩
      exact List.mem_filter.mpr ⟨hpmem, by simpa using hp0⟩
    unfold Entropy at h
    rw [neg_eq_zero] at h
    linarith
  · intro h1
    by_cases hne : y = []
    · subst hne
      simp [Entropy, compute_proportions]
    · unfold Entropy
      rw [compute_proportions_single hne h1]
      norm_num [L.one_eq]

theorem Gini_nonneg {α : Type} [DecidableEq α] (y : List α) :
    0 ≤ GiniImpurity y := by
  by_cases hne : y = []
  · subst hne
    norm_num [GiniImpurity, compute_proportions]
  · unfold GiniImpurity
    have hle : ((compute_proportions y).map (fun p => p ^ 2)).sum ≤
        ((compute_proportions y).map id).sum := by
      apply List.sum_le_sum
      intro p hp
      have h := compute_proportions_mem hp
      simp only [id]
      nlinarith [h.1, h.2]
    rw [List.map_id, compute_proportions_sum hne] at hle
    linarith

theorem Gini_eq_zero_iff {α : Type} [DecidableEq α] (y : List α) :
    GiniImpurity y = 0 ↔ (y ≠ [] ∧ y.dedup.length ≤ 1) := by
  constructor
  · intro h
    by_cases hne : y = []
    · subst hne
      norm_num [GiniImpurity, compute_proportions] at h
    · refine ⟨hne, ?_⟩
      by_contra hgt
      have h2 : 2 ≤ y.dedup.length := by omega
      have hstrict : ((compute_proportions y).map (fun p => p ^ 2)).sum <
          ((compute_proportions y).map id).sum := by
        apply List.sum_lt_sum_of_ne_nil (compute_proportions_ne_nil hne)
        intro p hp
        have h0 := (compute_proportions_mem hp).1
        have h1 := compute_proportions_lt_one h2 p hp
        simp only [id]
        nlinarith
      rw [List.map_id, compute_proportions_sum hne] at hstrict
      unfold GiniImpurity at h
      linarith
  · rintro ⟨hne, h1⟩
    unfold GiniImpurity
    rw [compute_proportions_single hne h1]
    norm_num

theorem Misclassification_nonneg {α : Type} [DecidableEq α] (y : List α) :
    0 ≤ MisclassificationError y := by
  unfold MisclassificationError
  by_cases hlen : 0 < (compute_proportions y).length
  · rw [if_pos hlen]
    cases hmax : (compute_proportions y).maximum with
    | bot =>
      rw [List.maximum_eq_bot] at hmax
      rw [hmax] at hlen
      simp at hlen
    | coe m =>
      have hm := List.maximum_mem hmax
      have := (compute_proportions_mem hm).2
      rw [WithBot.unbot'_coe]
      linarith
  · rw [if_neg hlen]

theorem Misclassification_eq_zero_iff {α : Type} [DecidableEq α] (y : List α) :
    MisclassificationError y = 0 ↔ y.dedup.length ≤ 1 := by
  constructor
  · intro h
    by_contra hgt
    have h2 : 2 ≤ y.dedup.length := by omega
    have hne : y ≠ [] := dedup_ge_two_ne_nil h2
    have hlen : 0 < (compute_proportions y).length :=
      List.length_pos.mpr (compute_proportions_ne_nil hne)
    unfold MisclassificationError at h
    rw [if_pos hlen] at h
    cases hmax : (compute_proportions y).maximum with
    | bot =>
      rw [List.maximum_eq_bot] at hmax
      exact compute_proportions_ne_nil hne hmax
    | coe m =>
      have hm := List.maximum_mem hmax
      have hlt := compute_proportions_lt_one h2 m hm
      rw [hmax, WithBot.unbot'_coe] at h
      linarith
  · intro h1
    by_cases hne : y = []
    · subst hne
      simp [MisclassificationError, compute_proportions]
    · unfold MisclassificationError
      rw [compute_proportions_single hne h1]
      norm_num

/-- Counterexample for C3 as stated: on the empty label vector, Gini impurity
    is `1 - np.sum([] ** 2) = 1`, not 0, so the "equals 0 iff empty or
    single-class" biconditional fails for Gini at `y = []`. -/
theorem gini_empty_counterexample :
    GiniImpurity ([] : List ℤ) = 1 ∧ GiniImpurity ([] : List ℤ) ≠ 0 := by
  constructor
  · norm_num [GiniImpurity, compute_proportions]
  · norm_num [GiniImpurity, compute_proportions]

/-- C3 (amended): all three impurity metrics are non-negative; entropy and
    misclassification error are 0 exactly when the label vector is empty or
    has at most one distinct value (`y.dedup.length ≤ 1` covers both); Gini is
    0 exactly when the vector is non-empty with at most one distinct value,
    and on the empty vector Gini returns 1. -/
theorem impurity_nonneg_zero_iff {α : Type} [DecidableEq α] (L : Log2)
    (y : List α) :
    (0 ≤ Entropy L y ∧ 0 ≤ GiniImpurity y ∧ 0 ≤ MisclassificationError y) ∧
    (Entropy L y = 0 ↔ y.dedup.length ≤ 1) ∧
    (MisclassificationError y = 0 ↔ y.dedup.length ≤ 1) ∧
    (GiniImpurity y = 0 ↔ (y ≠ [] ∧ y.dedup.length ≤ 1)) ∧
    GiniImpurity ([] : List α) = 1 :=
  ⟨⟨Entropy_nonneg L y, Gini_nonneg y, Misclassification_nonneg y⟩,
   Entropy_eq_zero_iff L y, Misclassification_eq_zero_iff y,
   Gini_eq_zero_iff y,
   by norm_num [GiniImpurity, compute_proportions]⟩

/-- Witness for C3 (amended) at concrete label vectors: the single-class
    vector [0, 0] has zero entropy and zero Gini impurity, and the two-class
    vector [0, 1] has non-negative misclassification error. -/
theorem impurity_nonneg_zero_iff_witness :
    Entropy log2Step ([0, 0] : List ℤ) = 0 ∧
    GiniImpurity ([0, 0] : List ℤ) = 0 ∧
    0 ≤ MisclassificationError ([0, 1] : List ℤ) :=
  ⟨(impurity_nonneg_zero_iff log2Step ([0, 0] : List ℤ)).2.1.mpr (by decide),
   (impurity_nonneg_zero_iff log2Step ([0, 0] : List ℤ)).2.2.2.1.mpr
     ⟨by decide, by decide⟩,
   (impurity_nonneg_zero_iff log2Step ([0, 1] : List ℤ)).1.2.2⟩

/-! Split-quality functions: C4, C9, C5. -/

theorem ok_bind {β γ : Type} (a : β) (f : β → Except PyErr γ) :
    (Except.ok a >>= f) = f a := rfl

theorem error_bind {β γ : Type} (e : PyErr) (f : β → Except PyErr γ) :
    ((Except.error e : Except PyErr β) >>= f) = .error e := rfl

theorem weighted_child_impurity_ok {α : Type} (imp : List α → ℚ) {n : ℕ}
    (hn : n ≠ 0) (cs : List (List α)) :
    weighted_child_impurity imp n cs =
      .ok ((cs.map fun c => ((c.length : ℚ) / (n : ℚ)) * imp c).sum) := by
  have hq : (n : ℚ) ≠ 0 := by exact_mod_cast hn
  induction cs with
  | nil => simp [weighted_child_impurity]
  | cons c rest ih =>
    simp only [weighted_child_impurity, pydiv, if_neg hq, ok_bind, ih,
      List.map_cons, List.sum_cons]
    rfl

theorem split_info_sum_ok {α : Type} (L : Log2) {n : ℕ} (hn : n ≠ 0)
    (cs : List (List α)) :
    split_info_sum L n cs =
      .ok ((cs.map fun c => ((c.length : ℚ) / (n : ℚ)) *
        L.f ((c.length : ℚ) / (n : ℚ))).sum) := by
  have hq : (n : ℚ) ≠ 0 := by exact_mod_cast hn
  induction cs with
  | nil => simp [split_info_sum]
  | cons c rest ih =>
    simp only [split_info_sum, pydiv, if_neg hq, ok_bind, ih,
      List.map_cons, List.sum_cons]
    rfl

theorem information_gain_ok {α : Type} (imp : List α → ℚ) {y : List α}
    (hne : y ≠ []) (cs : List (List α)) :
    information_gain imp y cs =
      .ok (imp y -
        (cs.map fun c => ((c.length : ℚ) / (y.length : ℚ)) * imp c).sum) := by
  have hn : y.length ≠ 0 := fun h => hne (List.length_eq_zero.mp h)
  unfold information_gain
  rw [weighted_child_impurity_ok imp hn, ok_bind]
  rfl

/-- C4 (amended): calling `information_gain` with an empty parent and at least
    one child divides `len(child)` by `len(y_parent) = 0` in the first weight
    computation and raises the ZeroDivisionError-equivalent. -/
theorem information_gain_empty_parent {α : Type} (imp : List α → ℚ)
    (cs : List (List α)) (hcs : cs ≠ []) :
    information_gain imp ([] : List α) cs = .error .zeroDivision := by
  cases cs with
  | nil => exact absurd rfl hcs
  | cons c rest =>
    simp [information_gain, weighted_child_impurity, pydiv, error_bind]

/-- Witness for C4 (amended): empty parent with one child `[0]` raises the
    ZeroDivisionError-equivalent. -/
theorem information_gain_empty_parent_witness :
    information_gain GiniImpurity ([] : List ℤ) [[0]] = .error .zeroDivision :=
  information_gain_empty_parent GiniImpurity [[0]] (by decide)

/-- Counterexample for C4 as stated: with an empty parent and an empty child
    list the weight generator produces no terms, so no division happens: the
    call returns `ok 0` (entropy of the empty vector minus an empty sum)
    instead of raising a division-by-zero error. -/
theorem information_gain_empty_counterexample :
    information_gain (Entropy log2Step) ([] : List ℤ) [] = .ok 0 ∧
    information_gain (Entropy log2Step) ([] : List ℤ) [] ≠
      .error .zeroDivision := by
  have h : information_gain (Entropy log2Step) ([] : List ℤ) [] = .ok 0 := by
    unfold information_gain weighted_child_impurity
    norm_num [Entropy, compute_proportions]
  exact ⟨h, by rw [h]; exact fun hc => Except.noConfusion hc⟩

/-- C9: for any impurity function and any non-empty parent, the information
    gain of the trivial partition into the single child equal to the parent
    is exactly 0. -/
theorem information_gain_single_child {α : Type} (imp : List α → ℚ)
    (y : List α) (hne : y ≠ []) : information_gain imp y [y] = .ok 0 := by
  have hq : (y.length : ℚ) ≠ 0 := by
    exact_mod_cast fun h => hne (List.length_eq_zero.mp h)
  rw [information_gain_ok imp hne]
  simp [div_self hq]

/-- Witness for C9: the trivial single-child split of [0, 1] has zero
    information gain under Gini impurity. -/
theorem information_gain_single_child_witness :
    information_gain GiniImpurity ([0, 1] : List ℤ) [[0, 1]] = .ok 0 :=
  information_gain_single_child GiniImpurity [0, 1] (by decide)

theorem gain_ratio_ok {α : Type} (L : Log2) (imp : List α → ℚ) {y : List α}
    (hne : y ≠ []) (cs : List (List α)) :
    gain_ratio L imp y cs =
      .ok (if -((cs.map fun c => ((c.length : ℚ) / (y.length : ℚ)) *
              L.f ((c.length : ℚ) / (y.length : ℚ))).sum) = 0 then 0
           else (imp y -
              (cs.map fun c => ((c.length : ℚ) / (y.length : ℚ)) * imp c).sum) /
             -((cs.map fun c => ((c.length : ℚ) / (y.length : ℚ)) *
               L.f ((c.length : ℚ) / (y.length : ℚ))).sum)) := by
  have hn : y.length ≠ 0 := fun h => hne (List.length_eq_zero.mp h)
  unfold gain_ratio
  rw [information_gain_ok imp hne, ok_bind, split_info_sum_ok L hn, ok_bind]
  by_cases hsi : -((cs.map fun c => ((c.length : ℚ) / (y.length : ℚ)) *
      L.f ((c.length : ℚ) / (y.length : ℚ))).sum) = 0
  · rw [if_neg (not_not_intro hsi), if_pos hsi]
    rfl
  · rw [if_pos hsi, if_neg hsi]
    rfl

/-- C5: for every non-empty parent, gain ratio is the information gain divided
    by `split_info = -Σ (len(c)/len(parent)) · log2(len(c)/len(parent))`,
    except that it returns exactly 0 when the split information is 0 — in
    particular for the single-child split equal to the parent. -/
theorem gain_ratio_formula {α : Type} (L : Log2) (imp : List α → ℚ)
    (y : List α) (hne : y ≠ []) (cs : List (List α)) :
    (gain_ratio L imp y cs =
      .ok (if -((cs.map fun c => ((c.length : ℚ) / (y.length : ℚ)) *
              L.f ((c.length : ℚ) / (y.length : ℚ))).sum) = 0 then 0
           else (imp y -
              (cs.map fun c => ((c.length : ℚ) / (y.length : ℚ)) * imp c).sum) /
             -((cs.map fun c => ((c.length : ℚ) / (y.length : ℚ)) *
               L.f ((c.length : ℚ) / (y.length : ℚ))).sum))) ∧
    gain_ratio L imp y [y] = .ok 0 := by
  have hq : (y.length : ℚ) ≠ 0 := by
    exact_mod_cast fun h => hne (List.length_eq_zero.mp h)
  refine ⟨gain_ratio_ok L imp hne cs, ?_⟩
  rw [gain_ratio_ok L imp hne [y]]
  have hsi : -((([y] : List (List α)).map fun c =>
      ((c.length : ℚ) / (y.length : ℚ)) *
        L.f ((c.length : ℚ) / (y.length : ℚ))).sum) = 0 := by
    simp [div_self hq, L.one_eq]
  rw [if_pos hsi]

/-- Witness for C5: the single-child split of [0, 1] has gain ratio exactly 0
    under Gini impurity. -/
theorem gain_ratio_formula_witness :
    gain_ratio log2Step GiniImpurity ([0, 1] : List ℤ) [[0, 1]] = .ok 0 :=
  (gain_ratio_formula log2Step GiniImpurity [0, 1] (by decide) [[0, 1]]).2

/-! Dictionary lemmas for the aggregator model. -/

theorem dictGet_dictSet_self {β : Type} (d : Dict β) (k : String) (v : β) :
    dictGet? (dictSet d k v) k = some v := by
  induction d with
  | nil => simp [dictSet, dictGet?]
  | cons p rest ih =>
    by_cases h : p.1 = k
    · simp [dictSet, h, dictGet?]
    · simp [dictSet, h, dictGet?, ih]

theorem dictGet_dictSet_ne {β : Type} (d : Dict β) {k k2 : String} (h : k2 ≠ k)
    (v : β) : dictGet? (dictSet d k v) k2 = dictGet? d k2 := by
  induction d with
  | nil => simp [dictSet, dictGet?, Ne.symm h]
  | cons p rest ih =>
    by_cases hp : p.1 = k
    · have hp2 : p.1 ≠ k2 := fun hc => h (hc.symm.trans hp)
      simp [dictSet, hp, dictGet?, Ne.symm h, hp2]
    · by_cases hp2 : p.1 = k2
      · simp [dictSet, hp, dictGet?, hp2, h]
      · simp [dictSet, hp, dictGet?, hp2, ih]

theorem dictSet_keys {β : Type} (d : Dict β) (k : String) (v : β) :
    (dictSet d k v).map Prod.fst =
      if k ∈ d.map Prod.fst then d.map Prod.fst
      else d.map Prod.fst ++ [k] := by
  induction d with
  | nil => simp [dictSet]
  | cons p rest ih =>
    by_cases h : p.1 = k
    · simp [dictSet, h]
    · simp only [dictSet, if_neg h, List.map_cons, ih]
      by_cases hm : k ∈ rest.map Prod.fst
      · rw [if_pos hm, if_pos (by simp [hm])]
      · rw [if_neg hm, if_neg (by simp [hm, Ne.symm h])]
        simp

theorem dictSet_keys_nodup {β : Type} {d : Dict β}
    (h : (d.map Prod.fst).Nodup) (k : String) (v : β) :
    ((dictSet d k v).map Prod.fst).Nodup := by
  rw [dictSet_keys]
  by_cases hm : k ∈ d.map Prod.fst
  · rwa [if_pos hm]
  · rw [if_neg hm]
    exact List.Nodup.append h (List.nodup_singleton k)
      (fun a ha hk => hm ((List.mem_singleton.mp hk) ▸ ha))

theorem dictGet_isSome_iff_mem {β : Type} (d : Dict β) (k : String) :
    (dictGet? d k).isSome ↔ k ∈ d.map Prod.fst := by
  induction d with
  | nil => simp [dictGet?]
  | cons p rest ih =>
    by_cases h : p.1 = k
    · simp [dictGet?, h]
    · simp [dictGet?, h, ih, Ne.symm h]

/-! Lemmas about the aggregator's history initialisation and evaluation fold. -/

theorem foldl_init_get (ms : List Metric) :
    ∀ (h0 : Dict (List ℚ)) (nm : String),
      dictGet? (ms.foldl (fun h m => dictSet h m.name []) h0) nm =
        if nm ∈ ms.map Metric.name then some [] else dictGet? h0 nm := by
  induction ms with
  | nil =>
    intro h0 nm
    simp
  | cons m rest ih =>
    intro h0 nm
    simp only [List.foldl_cons, ih, List.map_cons, List.mem_cons]
    by_cases hm : nm ∈ rest.map Metric.name
    · rw [if_pos hm, if_pos (Or.inr hm)]
    · rw [if_neg hm]
      by_cases he : nm = m.name
      · rw [if_pos (Or.inl he), he, dictGet_dictSet_self]
      · rw [if_neg (fun hc => hc.elim he hm), dictGet_dictSet_ne _ he]

theorem init_history_get (ms : List Metric) (nm : String) :
    dictGet? (init_history ms) nm =
      if nm ∈ ms.map Metric.name then some [] else none := by
  unfold init_history
  rw [foldl_init_get]
  rfl

theorem init_history_keys_nodup (ms : List Metric) :
    ((init_history ms).map Prod.fst).Nodup := by
  unfold init_history
  have h : ∀ (h0 : Dict (List ℚ)), (h0.map Prod.fst).Nodup →
      ((ms.foldl (fun h m => dictSet h m.name []) h0).map Prod.fst).Nodup := by
    induction ms with
    | nil => exact fun h0 hh => hh
    | cons m rest ih =>
      intro h0 hh
      exact ih _ (dictSet_keys_nodup hh m.name [])
  exact h [] (by simp)

/-- Scores of the metrics named `nm` that evaluate successfully, in list
    order. -/
def successScores (y_true y_pred : PyValue) (nm : String)
    (ms : List Metric) : List ℚ :=
  ms.filterMap fun m =>
    if m.name = nm then (m.eval y_true y_pred).toOption else none

/-- Value stored in the results dict under `nm` after the loop: the outcome of
    the last metric named `nm` (`some score` on success, `none` on failure),
    or absent when no metric is named `nm`. -/
def lastResult (y_true y_pred : PyValue) (nm : String) :
    List Metric → Option (Option ℚ)
  | [] => none
  | m :: rest =>
    match lastResult y_true y_pred nm rest with
    | some v => some v
    | none =>
      if m.name = nm then some ((m.eval y_true y_pred).toOption) else none

theorem call_hist_get (y_true y_pred : PyValue) (nm : String) :
    ∀ (ms : List Metric) (h : Dict (List ℚ)) (r : Dict (Option ℚ))
      (l : List ℚ), dictGet? h nm = some l →
      dictGet? (ms.foldl (evalOne y_true y_pred) (h, r)).1 nm =
        some (l ++ successScores y_true y_pred nm ms) := by
  intro ms
  induction ms with
  | nil =>
    intro h r l hl
    simpa [successScores] using hl
  | cons m rest ih =>
    intro h r l hl
    rw [List.foldl_cons]
    cases hev : m.eval y_true y_pred with
    | ok s =>
      have hone : evalOne y_true y_pred (h, r) m =
          (dictSet h m.name (((dictGet? h m.name).getD []) ++ [s]),
           dictSet r m.name (some s)) := by
        simp [evalOne, hev]
      rw [hone]
      by_cases hm : m.name = nm
      · subst hm
        have hget : dictGet? (dictSet h m.name
            (((dictGet? h m.name).getD []) ++ [s])) m.name = some (l ++ [s]) := by
          rw [hl, dictGet_dictSet_self]
          rfl
        rw [ih _ _ (l ++ [s]) hget]
        have hsc : successScores y_true y_pred m.name (m :: rest) =
            s :: successScores y_true y_pred m.name rest := by
          simp [successScores, List.filterMap_cons, hev, Except.toOption]
        rw [hsc, List.append_assoc]
        rfl
      · have hget : dictGet? (dictSet h m.name
            (((dictGet? h m.name).getD []) ++ [s])) nm = some l := by
          rw [dictGet_dictSet_ne _ (fun he => hm he.symm), hl]
        rw [ih _ _ l hget]
        have hsc : successScores y_true y_pred nm (m :: rest) =
            successScores y_true y_pred nm rest := by
          simp [successScores, List.filterMap_cons, hm]
        rw [hsc]
    | error e =>
      have hone : evalOne y_true y_pred (h, r) m =
          (h, dictSet r m.name none) := by
        simp [evalOne, hev]
      rw [hone, ih _ _ l hl]
      have hsc : successScores y_true y_pred nm (m :: rest) =
          successScores y_true y_pred nm rest := by
        simp [successScores, List.filterMap_cons, hev, Except.toOption]
      rw [hsc]

theorem call_res_get (y_true y_pred : PyValue) (nm : String) :
    ∀ (ms : List Metric) (h : Dict (List ℚ)) (r : Dict (Option ℚ)),
      dictGet? (ms.foldl (evalOne y_true y_pred) (h, r)).2 nm =
        match lastResult y_true y_pred nm ms with
        | some v => some v
        | none => dictGet? r nm := by
  intro ms
  induction ms with
  | nil =>
    intro h r
    simp [lastResult]
  | cons m rest ih =>
    intro h r
    rw [List.foldl_cons]
    cases hev : m.eval y_true y_pred with
    | ok s =>
      have hone : evalOne y_true y_pred (h, r) m =
          (dictSet h m.name (((dictGet? h m.name).getD []) ++ [s]),
           dictSet r m.name (some s)) := by
        simp [evalOne, hev]
      rw [hone, ih]
      by_cases hm : m.name = nm
      · subst hm
        cases hlr : lastResult y_true y_pred m.name rest with
        | some v => simp [lastResult, hlr]
        | none =>
          simp [lastResult, hlr, hev, Except.toOption, dictGet_dictSet_self]
      · cases hlr : lastResult y_true y_pred nm rest with
        | some v => simp [lastResult, hlr]
        | none =>
          simp only [lastResult, hlr, if_neg hm]
          exact dictGet_dictSet_ne _ (fun he => hm he.symm) _
    | error e =>
      have hone : evalOne y_true y_pred (h, r) m =
          (h, dictSet r m.name none) := by
        simp [evalOne, hev]
      rw [hone, ih]
      by_cases hm : m.name = nm
      · subst hm
        cases hlr : lastResult y_true y_pred m.name rest with
        | some v => simp [lastResult, hlr]
        | none =>
          simp [lastResult, hlr, hev, Except.toOption, dictGet_dictSet_self]
      · cases hlr : lastResult y_true y_pred nm rest with
        | some v => simp [lastResult, hlr]
        | none =>
          simp only [lastResult, hlr, if_neg hm]
          exact dictGet_dictSet_ne _ (fun he => hm he.symm) _

theorem call_keys_nodup (y_true y_pred : PyValue) :
    ∀ (ms : List Metric) (h : Dict (List ℚ)) (r : Dict (Option ℚ)),
      (h.map Prod.fst).Nodup → (r.map Prod.fst).Nodup →
      ((ms.foldl (evalOne y_true y_pred) (h, r)).1.map Prod.fst).Nodup ∧
      ((ms.foldl (evalOne y_true y_pred) (h, r)).2.map Prod.fst).Nodup := by
  intro ms
  induction ms with
  | nil => exact fun h r hh hr => ⟨hh, hr⟩
  | cons m rest ih =>
    intro h r hh hr
    rw [List.foldl_cons]
    cases hev : m.eval y_true y_pred with
    | ok s =>
      have hone : evalOne y_true y_pred (h, r) m =
          (dictSet h m.name (((dictGet? h m.name).getD []) ++ [s]),
           dictSet r m.name (some s)) := by
        simp [evalOne, hev]
      rw [hone]
      exact ih _ _ (dictSet_keys_nodup hh _ _) (dictSet_keys_nodup hr _ _)
    | error e =>
      have hone : evalOne y_true y_pred (h, r) m =
          (h, dictSet r m.name none) := by
        simp [evalOne, hev]
      rw [hone]
      exact ih _ _ hh (dictSet_keys_nodup hr _ _)

/-! Bridge lemmas relating the fold results to filtered metric lists. -/

theorem filter_name_eq_single {ms : List Metric}
    (hnd : (ms.map Metric.name).Nodup) {m : Metric} (hm : m ∈ ms) :
    ms.filter (fun x => x.name = m.name) = [m] := by
  induction ms with
  | nil => cases hm
  | cons a rest ih =>
    rw [List.map_cons, List.nodup_cons] at hnd
    rcases List.mem_cons.mp hm with rfl | hm2
    · rw [List.filter_cons_of_pos (by simp)]
      have hrest : rest.filter (fun x => x.name = m.name) = [] := by
        refine List.filter_eq_nil_iff.mpr fun x hx => ?_
        simp only [decide_eq_true_eq]
        intro hxe
        exact hnd.1 (hxe ▸ List.mem_map_of_mem Metric.name hx)
      rw [hrest]
    · have hane : ¬(a.name = m.name) := fun he =>
        hnd.1 (he ▸ List.mem_map_of_mem Metric.name hm2)
      rw [List.filter_cons_of_neg (by simpa using hane)]
      exact ih hnd.2 hm2

theorem successScores_eq (y_true y_pred : PyValue) (nm : String)
    (ms : List Metric) :
    successScores y_true y_pred nm ms =
      (ms.filter (fun x => x.name = nm)).filterMap
        (fun m => (m.eval y_true y_pred).toOption) := by
  induction ms with
  | nil => rfl
  | cons m rest ih =>
    by_cases hm : m.name = nm
    · rw [List.filter_cons_of_pos (by simpa using hm)]
      simp only [successScores, List.filterMap_cons, if_pos hm] at *
      cases (m.eval y_true y_pred).toOption with
      | none => exact ih
      | some s => rw [ih]
    · rw [List.filter_cons_of_neg (by simpa using hm)]
      simp only [successScores, List.filterMap_cons, if_neg hm] at *
      exact ih

theorem lastResult_eq_filter (y_true y_pred : PyValue) (nm : String)
    (ms : List Metric) :
    lastResult y_true y_pred nm ms =
      ((ms.filter (fun x => x.name = nm)).getLast?).map
        (fun m => (m.eval y_true y_pred).toOption) := by
  induction ms with
  | nil => rfl
  | cons m rest ih =>
    by_cases hm : m.name = nm
    · rw [List.filter_cons_of_pos (by simpa using hm)]
      cases hfr : rest.filter (fun x => x.name = nm) with
      | nil =>
        rw [hfr] at ih
        simp [lastResult, ih, hm]
      | cons b t =>
        rw [hfr] at ih
        rw [List.getLast?_cons_cons]
        simp only [lastResult, ih]
        cases hbt : (b :: t).getLast? with
        | none => simp at hbt
        | some x => simp
    · rw [List.filter_cons_of_neg (by simpa using hm)]
      simp only [lastResult, ih, if_neg hm]
      cases ((rest.filter (fun x => x.name = nm)).getLast?).map
          (fun m => (m.eval y_true y_pred).toOption) with
      | none => rfl
      | some v => rfl

theorem filterMap_length_of_all_some {γ δ : Type} (f : γ → Option δ) :
    ∀ l : List γ, (∀ x ∈ l, (f x).isSome) → (l.filterMap f).length = l.length := by
  intro l
  induction l with
  | nil => intro _; rfl
  | cons a t ih =>
    intro hall
    have ha := hall a (List.mem_cons_self a t)
    obtain ⟨b, hb⟩ := Option.isSome_iff_exists.mp ha
    rw [List.filterMap_cons, hb]
    simp only [List.length_cons]
    rw [ih fun x hx => hall x (List.mem_cons_of_mem a hx)]

theorem getLast?_map {γ δ : Type} (f : γ → δ) :
    ∀ l : List γ, (l.map f).getLast? = l.getLast?.map f := by
  intro l
  induction l with
  | nil => rfl
  | cons a t ih =>
    cases t with
    | nil => rfl
    | cons b r =>
      rw [List.map_cons, List.map_cons, List.getLast?_cons_cons,
        List.getLast?_cons_cons, ← List.map_cons]
      exact ih

theorem filterMap_all_some_eq_map {γ δ : Type} (f : γ → Option δ)
    (g : γ → δ) : ∀ l : List γ, (∀ x ∈ l, f x = some (g x)) →
      l.filterMap f = l.map g := by
  intro l
  induction l with
  | nil => intro _; rfl
  | cons a t ih =>
    intro hall
    rw [List.filterMap_cons, hall a (List.mem_cons_self a t), List.map_cons,
      ih fun x hx => hall x (List.mem_cons_of_mem a hx)]

/-! C1 and C10: the aggregator theorems. -/

/-- C1 (amended): for an aggregator whose resolved metrics have pairwise
    distinct names, a metric whose evaluation raises gets `None` recorded
    under its name while its history entry is left unchanged, the call itself
    returns instead of raising, and every metric that evaluates successfully
    gets exactly one score appended to its history and its score recorded in
    the results. -/
theorem metricList_isolated_failure (y_true y_pred : PyValue)
    (ms : List Metric) (hnd : (ms.map Metric.name).Nodup) (m : Metric)
    (hm : m ∈ ms) (e : PyErr) (he : m.eval y_true y_pred = .error e) :
    dictGet? (MetricList_call ms (init_history ms) y_true y_pred).2 m.name =
      some none ∧
    dictGet? (MetricList_call ms (init_history ms) y_true y_pred).1 m.name =
      dictGet? (init_history ms) m.name ∧
    (∀ m2 ∈ ms, ∀ s : ℚ, m2.eval y_true y_pred = .ok s →
      dictGet? (MetricList_call ms (init_history ms) y_true y_pred).1 m2.name =
        some [s] ∧
      dictGet? (MetricList_call ms (init_history ms) y_true y_pred).2 m2.name =
        some (some s)) := by
  have hinit : ∀ m2 ∈ ms, dictGet? (init_history ms) m2.name = some [] := by
    intro m2 hm2
    rw [init_history_get, if_pos (List.mem_map_of_mem Metric.name hm2)]
  refine ⟨?_, ?_, ?_⟩
  · simp only [MetricList_call]
    rw [call_res_get, lastResult_eq_filter, filter_name_eq_single hnd hm]
    simp [he, Except.toOption]
  · simp only [MetricList_call]
    rw [call_hist_get y_true y_pred m.name ms _ _ [] (hinit m hm),
      successScores_eq, filter_name_eq_single hnd hm, hinit m hm]
    simp [List.filterMap_cons, he, Except.toOption]
  · intro m2 hm2 s hs
    constructor
    · simp only [MetricList_call]
      rw [call_hist_get y_true y_pred m2.name ms _ _ [] (hinit m2 hm2),
        successScores_eq, filter_name_eq_single hnd hm2]
      simp [List.filterMap_cons, hs, Except.toOption]
    · simp only [MetricList_call]
      rw [call_res_get, lastResult_eq_filter, filter_name_eq_single hnd hm2]
      simp [hs, Except.toOption]

/-- Witness for C1 (amended): an aggregator over a raising callable named
    "bad" and the accuracy metric, evaluated on `[0]` vs `[0]`: "bad" maps to
    `None` with empty history, accuracy scores 1 with a one-entry history. -/
theorem metricList_isolated_failure_witness :
    dictGet? (MetricList_call
        [MetricWrapper ⟨"bad", fun _ _ => .error .raised⟩, Accuracy]
        (init_history
          [MetricWrapper ⟨"bad", fun _ _ => .error .raised⟩, Accuracy])
        (.arr [0]) (.arr [0])).2 "bad" = some none ∧
    dictGet? (MetricList_call
        [MetricWrapper ⟨"bad", fun _ _ => .error .raised⟩, Accuracy]
        (init_history
          [MetricWrapper ⟨"bad", fun _ _ => .error .raised⟩, Accuracy])
        (.arr [0]) (.arr [0])).1 "accuracy" = some [1] :=
  ⟨(metricList_isolated_failure (.arr [0]) (.arr [0])
      [MetricWrapper ⟨"bad", fun _ _ => .error .raised⟩, Accuracy]
      (by decide) (MetricWrapper ⟨"bad", fun _ _ => .error .raised⟩)
      (List.mem_cons_self _ _) .raised rfl).1,
   ((metricList_isolated_failure (.arr [0]) (.arr [0])
      [MetricWrapper ⟨"bad", fun _ _ => .error .raised⟩, Accuracy]
      (by decide) (MetricWrapper ⟨"bad", fun _ _ => .error .raised⟩)
      (List.mem_cons_self _ _) .raised rfl).2.2 Accuracy
      (List.mem_cons_of_mem _ (List.mem_cons_self _ _)) 1
      (by norm_num [Accuracy, withValidation, validate_inputs])).1⟩

/-- Counterexample for C1 as stated: two identifiers with the same resolved
    name "m" (as `get_metric` produces for two callables whose `__name__`
    coincide), the first raising and the second succeeding.  The result maps
    "m" to the second metric's score 1 — not to `None` — and the failing
    metric's (shared) history gains an entry, so the per-metric isolation
    wording of the claim fails for duplicate names. -/
theorem metricList_isolated_failure_counterexample :
    dictGet? (MetricList_call
        [MetricWrapper ⟨"m", fun _ _ => .error .raised⟩,
         MetricWrapper ⟨"m", fun _ _ => .ok 1⟩]
        (init_history
          [MetricWrapper ⟨"m", fun _ _ => .error .raised⟩,
           MetricWrapper ⟨"m", fun _ _ => .ok 1⟩])
        (.arr [0]) (.arr [0])).2 "m" = some (some 1) ∧
    dictGet? (MetricList_call
        [MetricWrapper ⟨"m", fun _ _ => .error .raised⟩,
         MetricWrapper ⟨"m", fun _ _ => .ok 1⟩]
        (init_history
          [MetricWrapper ⟨"m", fun _ _ => .error .raised⟩,
           MetricWrapper ⟨"m", fun _ _ => .ok 1⟩])
        (.arr [0]) (.arr [0])).1 "m" = some [1] ∧
    some (some (1 : ℚ)) ≠ some (none : Option ℚ) :=
  ⟨by decide, by decide, fun h => by cases (Option.some.inj h)⟩

theorem getLast?_map_of_all_some {γ δ : Type} (f : γ → Option δ) :
    ∀ l : List γ, (∀ x ∈ l, (f x).isSome) → l ≠ [] →
      (l.getLast?).map f = some ((l.filterMap f).getLast?) := by
  intro l
  induction l with
  | nil => exact fun _ h => absurd rfl h
  | cons x t ih =>
    intro hall _
    cases t with
    | nil =>
      obtain ⟨s, hs⟩ :=
        Option.isSome_iff_exists.mp (hall x (List.mem_cons_self _ _))
      simp [List.filterMap_cons, hs]
    | cons y r =>
      have hall2 : ∀ z ∈ y :: r, (f z).isSome := fun z hz =>
        hall z (List.mem_cons_of_mem x hz)
      rw [List.getLast?_cons_cons, ih hall2 (by simp)]
      obtain ⟨s, hs⟩ :=
        Option.isSome_iff_exists.mp (hall x (List.mem_cons_self _ _))
      obtain ⟨sy, hsy⟩ :=
        Option.isSome_iff_exists.mp (hall2 y (List.mem_cons_self _ _))
      rw [List.filterMap_cons_some hs]
      cases hc : (y :: r).filterMap f with
      | nil =>
        rw [List.filterMap_cons_some hsy] at hc
        cases hc
      | cons b u =>
        rw [List.getLast?_cons_cons]

theorem lastResult_of_all_ok (y_true y_pred : PyValue) (nm : String)
    (ms : List Metric)
    (hok : ∀ m ∈ ms, m.name = nm → ∃ s : ℚ, m.eval y_true y_pred = .ok s)
    (hfne : ms.filter (fun x => x.name = nm) ≠ []) :
    lastResult y_true y_pred nm ms =
      some ((successScores y_true y_pred nm ms).getLast?) := by
  rw [lastResult_eq_filter, successScores_eq]
  refine getLast?_map_of_all_some _ _ ?_ hfne
  intro x hx
  have hmem := List.mem_filter.mp hx
  obtain ⟨s, hs⟩ := hok x hmem.1 (by simpa using hmem.2)
  simp [hs, Except.toOption]

/-- C10: when two or more metrics of the aggregator share the name `nm` and
    all of them evaluate successfully, the aggregator keeps exactly one
    history list under `nm`; a call appends every same-named metric's score to
    that one shared list (one entry per such metric, hence at least two per
    call), and the results dict holds a single entry for `nm` whose value is
    the score of the last same-named metric in list order. -/
theorem metricList_duplicate_names (y_true y_pred : PyValue)
    (ms : List Metric) (nm : String)
    (hdup : 2 ≤ (ms.filter (fun x => x.name = nm)).length)
    (hok : ∀ m ∈ ms, m.name = nm → ∃ s : ℚ, m.eval y_true y_pred = .ok s) :
    ((init_history ms).map Prod.fst).count nm = 1 ∧
    dictGet? (MetricList_call ms (init_history ms) y_true y_pred).1 nm =
      some (successScores y_true y_pred nm ms) ∧
    (successScores y_true y_pred nm ms).length =
      (ms.filter (fun x => x.name = nm)).length ∧
    2 ≤ (successScores y_true y_pred nm ms).length ∧
    (((MetricList_call ms (init_history ms) y_true y_pred).2.map
      Prod.fst).count nm = 1) ∧
    dictGet? (MetricList_call ms (init_history ms) y_true y_pred).2 nm =
      some ((successScores y_true y_pred nm ms).getLast?) := by
  have hfne : ms.filter (fun x => x.name = nm) ≠ [] := by
    intro hc
    rw [hc] at hdup
    simp at hdup
  obtain ⟨m0, hm0f⟩ := List.exists_mem_of_ne_nil _ hfne
  have hm0 := List.mem_filter.mp hm0f
  have hm0nm : m0.name = nm := by simpa using hm0.2
  have hnmmem : nm ∈ ms.map Metric.name :=
    hm0nm ▸ List.mem_map_of_mem Metric.name hm0.1
  have hinitnm : dictGet? (init_history ms) nm = some [] := by
    rw [init_history_get, if_pos hnmmem]
  have hallsome : ∀ x ∈ ms.filter (fun x => x.name = nm),
      ((fun m : Metric => (m.eval y_true y_pred).toOption) x).isSome := by
    intro x hx
    have hmem := List.mem_filter.mp hx
    obtain ⟨s, hs⟩ := hok x hmem.1 (by simpa using hmem.2)
    simp [hs, Except.toOption]
  have hlen : (successScores y_true y_pred nm ms).length =
      (ms.filter (fun x => x.name = nm)).length := by
    rw [successScores_eq]
    exact filterMap_length_of_all_some _ _ hallsome
  have hres : dictGet? (MetricList_call ms (init_history ms) y_true y_pred).2
      nm = some ((successScores y_true y_pred nm ms).getLast?) := by
    simp only [MetricList_call]
    rw [call_res_get, lastResult_of_all_ok y_true y_pred nm ms hok hfne]
  refine ⟨?_, ?_, hlen, ?_, ?_, hres⟩
  · exact (List.nodup_iff_count_eq_one.mp (init_history_keys_nodup ms)) nm
      ((dictGet_isSome_iff_mem _ _).mp (by rw [hinitnm]; rfl))
  · simp only [MetricList_call]
    rw [call_hist_get y_true y_pred nm ms _ _ [] hinitnm, List.nil_append]
  · rw [hlen]
    exact hdup
  · simp only [MetricList_call]
    have hnd := (call_keys_nodup y_true y_pred ms (init_history ms) []
      (init_history_keys_nodup ms) (by simp)).2
    refine (List.nodup_iff_count_eq_one.mp hnd) nm
      ((dictGet_isSome_iff_mem _ _).mp ?_)
    have hres2 := hres
    simp only [MetricList_call] at hres2
    rw [hres2]
    rfl

/-- Witness for C10: two wrapped callables both named "m" returning 1 and 2;
    the one shared history list under "m" receives both scores in order. -/
theorem metricList_duplicate_names_witness :
    dictGet? (MetricList_call
        [MetricWrapper ⟨"m", fun _ _ => .ok 1⟩,
         MetricWrapper ⟨"m", fun _ _ => .ok 2⟩]
        (init_history
          [MetricWrapper ⟨"m", fun _ _ => .ok 1⟩,
           MetricWrapper ⟨"m", fun _ _ => .ok 2⟩])
        (.arr [0]) (.arr [0])).1 "m" =
      some (successScores (.arr [0]) (.arr [0]) "m"
        [MetricWrapper ⟨"m", fun _ _ => .ok 1⟩,
         MetricWrapper ⟨"m", fun _ _ => .ok 2⟩]) :=
  (metricList_duplicate_names (.arr [0]) (.arr [0])
    [MetricWrapper ⟨"m", fun _ _ => .ok 1⟩,
     MetricWrapper ⟨"m", fun _ _ => .ok 2⟩] "m" (by decide)
    (by
      intro m hm _
      rcases List.mem_cons.mp hm with rfl | hm2
      · exact ⟨1, rfl⟩
      · rcases List.mem_cons.mp hm2 with rfl | hm3
        · exact ⟨2, rfl⟩
        · cases hm3)).2.1

end MlAlgoLib
